import Mathlib

/-!
Verification of the language-package-generator pipeline.

The definitions below are a shallow embedding of the Python sources:
  - src/translator (SRT parsing module, SRT writing module, translation
    service, AI polisher, DOCX writing module)
  - src/language_package_generator.py (the orchestrator)

File I/O is modeled by passing file contents as strings; external
backends (the translation API and the chat-completion client) are
modeled as function parameters; Python exceptions are modeled with
`Except`/`Option`.
-/

namespace LPG

/-! ### Python character classes (ASCII fragment of the `str` methods
and of the `\s`, `\d` regex classes used by the sources). -/

def pyIsSpace (c : Char) : Bool :=
  c == ' ' || c == '\t' || c == '\n' || c == '\r' || c == '\x0b' || c == '\x0c'

def isLineBreak (c : Char) : Bool :=
  c == '\n' || c == '\r' || c == '\x0b' || c == '\x0c'

def isDig (c : Char) : Bool := c.isDigit

/-! ### Python string helpers: `str.strip`, `str.splitlines`, `' '.join` -/

/-- Python `str.strip()`: drop leading and trailing whitespace. -/
def stripBoth (l : List Char) : List Char :=
  ((l.dropWhile pyIsSpace).reverse.dropWhile pyIsSpace).reverse

/-- Drop only trailing whitespace. -/
def stripTrailing (l : List Char) : List Char :=
  (l.reverse.dropWhile pyIsSpace).reverse

def stripTrailingStr (s : String) : String := ⟨stripTrailing s.data⟩

/-- Python `str.splitlines()` (ASCII line breaks: LF, CR, CRLF, VT, FF);
`acc` is the current line, reversed; `prevCR` tells whether the previous
character was a CR, so that the LF of a CRLF pair does not close a
second line. A trailing line terminator does not produce a final empty
line. This one-character-at-a-time formulation was checked against
CPython `str.splitlines` on randomized inputs. -/
def pySplitlinesAux (prevCR : Bool) (acc : List Char) :
    List Char → List (List Char)
  | [] => if acc.isEmpty then [] else [acc.reverse]
  | c :: r =>
    if c == '\n' then
      if prevCR then pySplitlinesAux false acc r
      else acc.reverse :: pySplitlinesAux false [] r
    else if c == '\r' then acc.reverse :: pySplitlinesAux true [] r
    else if isLineBreak c then acc.reverse :: pySplitlinesAux false [] r
    else pySplitlinesAux false (c :: acc) r

def pySplitlines (l : List Char) : List (List Char) :=
  pySplitlinesAux false [] l

/-- Python `' '.join(...)`. -/
def joinSpace : List (List Char) → List Char
  | [] => []
  | [x] => x
  | x :: xs => x ++ ' ' :: joinSpace xs

/-! ### Data model: one subtitle cue.

The parsing module produces dicts with keys num/start/end/text; the
translation service and the polisher produce dicts without the num key,
and no consumer ever reads num from those, so the num field is set to ""
for entries they produce. -/

structure Cue where
  num : String
  start : String
  «end» : String
  text : String
deriving DecidableEq, Repr

/-! ### The SRT parsing module (src/translator, parse_srt)

Python:
  pattern = (digits)\s+(hh:mm:ss,mmm) --> (hh:mm:ss,mmm)\s+(lazy any)(?=\n\n|\Z)
  matches = re.findall(pattern, content)
  then each text is cleaned by splitting lines, stripping each, joining with a space.

For this particular pattern the backtracking regex engine is equivalent
to the deterministic scan below:
  - the greedy digit run never gives characters back (its follower `\s+`
    accepts no digit);
  - each greedy whitespace run never gives characters back (its follower
    is either a digit of the timestamp, or the lazy group, which paired
    with the `\Z` alternative of the lookahead always completes);
  - the lazy group therefore takes the shortest prefix after which the
    remaining input starts with a blank line (LF LF) or is empty;
  - `re.findall` scans left to right, resuming after each match.
This equivalence was checked exhaustively against the CPython engine on
randomized inputs while writing this model. -/

def spanP (p : Char → Bool) : List Char → List Char × List Char
  | [] => ([], [])
  | c :: r => if p c then (let x := spanP p r; (c :: x.1, x.2)) else ([], c :: r)

/-- Match a fixed-length sequence of character predicates at the front. -/
def matchPreds : List (Char → Bool) → List Char → Option (List Char × List Char)
  | [], l => some ([], l)
  | _ :: _, [] => none
  | p :: ps, c :: r =>
      if p c then (matchPreds ps r).map (fun x => (c :: x.1, x.2)) else none

/-- Shape of one SRT timestamp: `dd:dd:dd,ddd`. -/
def tsPreds : List (Char → Bool) :=
  [isDig, isDig, (· == ':'), isDig, isDig, (· == ':'), isDig, isDig, (· == ','),
   isDig, isDig, isDig]

/-- The literal ` --> ` between the two timestamps. -/
def arrowPreds : List (Char → Bool) :=
  [(· == ' '), (· == '-'), (· == '-'), (· == '>'), (· == ' ')]

/-- The lazy group with lookahead: shortest prefix such that the rest
starts with two LFs or is empty. -/
def lazyUpToBlank : List Char → List Char × List Char
  | [] => ([], [])
  | c :: r =>
    if c == '\n' && r.head? == some '\n' then ([], c :: r)
    else (let x := lazyUpToBlank r; (c :: x.1, x.2))

structure RawCue where
  num : List Char
  tstart : List Char
  tend : List Char
  raw : List Char
deriving DecidableEq, Repr

/-- One attempt of the pattern at the current position. -/
def matchAt (l : List Char) : Option (RawCue × List Char) :=
  let d := spanP isDig l
  if d.1.isEmpty then none else
  let w1 := spanP pyIsSpace d.2
  if w1.1.isEmpty then none else
  match matchPreds tsPreds w1.2 with
  | none => none
  | some (ts1, r3) =>
    match matchPreds arrowPreds r3 with
    | none => none
    | some (_, r4) =>
      match matchPreds tsPreds r4 with
      | none => none
      | some (ts2, r5) =>
        let w2 := spanP pyIsSpace r5
        if w2.1.isEmpty then none else
        let t := lazyUpToBlank w2.2
        some ({ num := d.1, tstart := ts1, tend := ts2, raw := t.1 }, t.2)

/-- Scanning as in re.findall; the fuel argument only forces termination and
is always called with at least the length of the input (each match
consumes at least one character). -/
def scanAux : Nat → List Char → List RawCue
  | 0, _ => []
  | f + 1, l =>
    match l with
    | [] => []
    | _ :: tl =>
      match matchAt l with
      | some (e, rest) => e :: scanAux f rest
      | none => scanAux f tl

/-- Per-match text cleanup:
`' '.join(line.strip() for line in text.splitlines())`. -/
def cleanText (raw : List Char) : List Char :=
  joinSpace ((pySplitlines raw).map stripBoth)

def rawToCue (r : RawCue) : Cue :=
  { num := ⟨r.num⟩, start := ⟨r.tstart⟩, «end» := ⟨r.tend⟩,
    text := ⟨cleanText r.raw⟩ }

def parseChars (content : List Char) : List Cue :=
  (scanAux content.length content).map rawToCue

/-- Model of parse_srt: the file read is modeled by passing the file content. -/
def parse_srt (content : String) : List Cue := parseChars content.data

/-! ### The SRT writing module (src/translator, write_srt)

Python writes, for each entry, `f"{i}\n"`, `f"{start} --> {end}\n"`,
`f"{text}\n\n"`, with `i` regenerated from 1. -/

def digitChar : Nat → Char
  | 0 => '0' | 1 => '1' | 2 => '2' | 3 => '3' | 4 => '4'
  | 5 => '5' | 6 => '6' | 7 => '7' | 8 => '8' | _ => '9'

/-- Decimal numeral of a natural number (Python `f"{i}"`); fuel `n + 1`
is always sufficient. -/
def natToDecAux : Nat → Nat → List Char
  | 0, _ => []
  | f + 1, n => if n < 10 then [digitChar n] else natToDecAux f (n / 10) ++ [digitChar (n % 10)]

def natToDec (n : Nat) : List Char := natToDecAux (n + 1) n

def cueBlock (n : Nat) (c : Cue) : List Char :=
  natToDec n ++ '\n' ::
    (c.start.data ++ [' ', '-', '-', '>', ' '] ++ c.«end».data ++ '\n' ::
      (c.text.data ++ ['\n', '\n']))

def writeChars : Nat → List Cue → List Char
  | _, [] => []
  | n, c :: tl => cueBlock n c ++ writeChars (n + 1) tl

/-- Model of write_srt: the file write is modeled by returning the written
content. -/
def write_srt (subtitles : List Cue) : String := ⟨writeChars 1 subtitles⟩

/-! ### The translation service (src/translator, translate_lines)

Python builds `GoogleTranslator(source=src_lang, target=dest_lang)` and
calls `translator.translate(s['text'])` for each cue whose stripped text
is non-empty; blank cues get the empty string without any backend call.
The remote backend is abstracted as the `translator` parameter; the loop
is modeled once, returning both the output buffer and the log of texts
sent to the backend (in call order), so invocation counts are provable. -/

def translate_lines_go (translator : String → String) :
    List Cue → List Cue × List String
  | [] => ([], [])
  | s :: rest =>
    let step : String × List String :=
      if (stripBoth s.text.data).isEmpty then ("", [])
      else (translator s.text, [s.text])
    let x := translate_lines_go translator rest
    ({ num := "", start := s.start, «end» := s.«end», text := step.1 } :: x.1,
     step.2 ++ x.2)

def translate_lines (translator : String → String) (subtitles : List Cue) :
    List Cue :=
  (translate_lines_go translator subtitles).1

/-- The texts for which `translate_lines` invoked the remote backend, in
order. -/
def translateCalls (translator : String → String) (subtitles : List Cue) :
    List String :=
  (translate_lines_go translator subtitles).2

/-! ### The AI polisher (src/translator, polish_texts)

The chat-completion client is abstracted as the `complete` parameter,
taking the user prompt and returning either the completion content or an
exception message. Per text: blank texts short-circuit to ""; on success
the stripped completion is kept; on any exception a warning line is
printed (collected here in a log) and the original text is kept. The
final list is rebuilt by indexing `translations[i]` and `polished[i]`
over `range(len(translations))`; `polished` always has the same length,
so the `getD` defaults below are never hit. -/

def buildPrompt (language text : String) : String :=
  "\n        You are a professional native " ++ language ++
  " speaker and editor.\n        Please polish and correct the following subtitle text, making sure it is clear, natural, and grammatically correct.\n        Do NOT translate it to another language. Just improve style and fix issues.\n        Text: \"" ++
  text ++ "\"\n        Polished:\n        "

def polishFailMessage (text err : String) : String :=
  "⚠️ AI polish failed for text: " ++ text ++ " — " ++ err

/-- One iteration of the polish loop: (resulting text, warnings printed). -/
def polishOne (complete : String → Except String String)
    (language text : String) : String × List String :=
  if (stripBoth text.data).isEmpty then ("", [])
  else
    match complete (buildPrompt language text) with
    | .ok response => (⟨stripBoth response.data⟩, [])
    | .error e => (text, [polishFailMessage text e])

def polish_texts_go (complete : String → Except String String)
    (language : String) : List String → List String × List String
  | [] => ([], [])
  | t :: ts =>
    let p := polishOne complete language t
    let x := polish_texts_go complete language ts
    (p.1 :: x.1, p.2 ++ x.2)

def polish_texts (complete : String → Except String String)
    (translations : List Cue) (language : String) : List Cue :=
  let texts := translations.map (·.text)
  let polished := (polish_texts_go complete language texts).1
  (List.range translations.length).map (fun i =>
    { num := "",
      start := ((translations.get? i).map (·.start)).getD "",
      «end» := ((translations.get? i).map (·.«end»)).getD "",
      text := (polished.get? i).getD "" })

/-- The warning lines printed by `polish_texts`. -/
def polishWarnings (complete : String → Except String String)
    (translations : List Cue) (language : String) : List String :=
  (polish_texts_go complete language (translations.map (·.text))).2

/-! ### Python exceptions raised by the modeled fragments -/

inductive PyError where
  | indexError : PyError
  | nameError : String → PyError
deriving DecidableEq, Repr

instance {ε α : Type} [DecidableEq ε] [DecidableEq α] :
    DecidableEq (Except ε α) := fun a b =>
  match a, b with
  | .ok x, .ok y =>
    if h : x = y then .isTrue (by rw [h]) else .isFalse (by simp [h])
  | .error x, .error y =>
    if h : x = y then .isTrue (by rw [h]) else .isFalse (by simp [h])
  | .ok _, .error _ => .isFalse (by simp)
  | .error _, .ok _ => .isFalse (by simp)

/-! ### The orchestrator polish gate (src/language_package_generator.py)

main() guards the polish pass with `args.ai_polish and OpenAI is not None`.
`and` short-circuits, then the name OpenAI is resolved in the scope of
the generator module. That module imports argparse, concurrent.futures,
Path, parse_srt, translate_lines, write_srt, write_docx and polish_texts
and defines process_language and main; it never binds OpenAI (only
polish_texts is imported from the polisher module), so resolving OpenAI
raises NameError. `openaiAvailable` says whether the polisher module
successfully imported openai (whether its OpenAI global is non-None). -/

def generatorModuleGlobals : List String :=
  ["argparse", "concurrent", "Path", "parse_srt", "translate_lines",
   "write_srt", "write_docx", "polish_texts", "process_language", "main"]

def pyBuiltins : List String :=
  ["print", "len", "range", "enumerate", "list", "str", "open"]

def generatorResolves (n : String) : Bool :=
  generatorModuleGlobals.contains n || pyBuiltins.contains n

def polishGate (ai_polish : Bool) (openaiAvailable : Bool) :
    Except PyError Bool :=
  if ai_polish then
    if generatorResolves "OpenAI" then .ok openaiAvailable
    else .error (.nameError "OpenAI")
  else
    .ok false

/-! ### The DOCX writing module (src/translator, write_docx)

The document is modeled as its table: a list of rows, each a list of
cell texts. The header is `["Timestamp"] + output_languages +
[input_language.upper()]`; every data row is created with that many
cells and filled at positions 0, 1..len(output_languages), and
len(header)-1 — i.e. timestamp, the requested languages in request
order, the original text last. A cell for language `lang` is
`translations.get(lang, [])[i]['text'] if lang in translations else ''`:
a missing key yields "", but a present key indexes the buffer at `i`,
raising IndexError when the buffer is too short. Borders and the actual
file save are layout side effects with no bearing on the table content
and are not modeled. -/

/-- Python `str.upper()` on the ASCII letters (language codes); written
as a table so that it evaluates inside the kernel. -/
def pyUpperChar : Char → Char
  | 'a' => 'A' | 'b' => 'B' | 'c' => 'C' | 'd' => 'D' | 'e' => 'E'
  | 'f' => 'F' | 'g' => 'G' | 'h' => 'H' | 'i' => 'I' | 'j' => 'J'
  | 'k' => 'K' | 'l' => 'L' | 'm' => 'M' | 'n' => 'N' | 'o' => 'O'
  | 'p' => 'P' | 'q' => 'Q' | 'r' => 'R' | 's' => 'S' | 't' => 'T'
  | 'u' => 'U' | 'v' => 'V' | 'w' => 'W' | 'x' => 'X' | 'y' => 'Y'
  | 'z' => 'Z' | c => c

def pyUpper (s : String) : String := ⟨s.data.map pyUpperChar⟩

def cellValue (translations : List (String × List Cue)) (lang : String)
    (i : Nat) : Except PyError String :=
  match translations.lookup lang with
  | some buf =>
    match buf.get? i with
    | some c => .ok c.text
    | none => .error .indexError
  | none => .ok ""

def buildRow (translations : List (String × List Cue))
    (output_languages : List String) (i : Nat) (entry : Cue) :
    Except PyError (List String) := do
  let cells ← output_languages.mapM (fun lang => cellValue translations lang i)
  return (entry.start ++ " --> " ++ entry.«end») :: cells ++ [entry.text]

def write_docx (original_subs : List Cue)
    (translations : List (String × List Cue))
    (output_languages : List String) (input_language : String) :
    Except PyError (List (List String)) := do
  let rows ← original_subs.enum.mapM
    (fun p => buildRow translations output_languages p.1 p.2)
  return ("Timestamp" :: output_languages ++ [pyUpper input_language]) :: rows

/-! ### Translation dispatch (src/language_package_generator.py)

main() submits `executor.submit(process_language, input_path,
args.input_language, lang, original_subs)` once per element of
`args.output_languages` — one job per occurrence, with no rejection or
deduplication of duplicates. -/

structure TranslationJob where
  src_lang : String
  dest_lang : String
deriving DecidableEq, Repr

def translationJobs (input_language : String)
    (output_languages : List String) : List TranslationJob :=
  output_languages.map (fun lang =>
    { src_lang := input_language, dest_lang := lang })

/-! ### The table the spec describes

Written from the words of spec §4.5 (Document Composer), to be compared
with `write_docx`: for row i, the timestamp from original cue i, then
for each language of the request order the text of that language's
buffer at index i (or empty if missing), then the original text; header
first; row count = cue count, column count = 2 + number of requested
languages. -/

def specCell (translations : List (String × List Cue)) (lang : String)
    (i : Nat) : String :=
  match translations.lookup lang with
  | some buf => match buf.get? i with | some c => c.text | none => ""
  | none => ""

def docxTableSpec (original_subs : List Cue)
    (translations : List (String × List Cue))
    (output_languages : List String) (input_language : String) :
    List (List String) :=
  ("Timestamp" :: output_languages ++ [pyUpper input_language]) ::
    original_subs.enum.map (fun p =>
      (p.2.start ++ " --> " ++ p.2.«end») ::
        output_languages.map (fun lang => specCell translations lang p.1) ++
        [p.2.text])

/-! ### Verification-side definitions

These are not part of the embedding of the sources; they name the shapes
used by the theorems below. -/

/-- Whether `a` matches the predicate list `ps` position by position (same
length, every predicate accepted). -/
def predsMatch : List (Char → Bool) → List Char → Bool
  | [], [] => true
  | p :: ps, c :: r => p c && predsMatch ps r
  | _, _ => false

/-- The shape every cue produced by `parse_srt` has: both timestamps in
`dd:dd:dd,ddd` form, and a text with no line-break characters and no
leading whitespace. -/
def CleanCue (c : Cue) : Prop :=
  predsMatch tsPreds c.start.data = true ∧
  predsMatch tsPreds c.«end».data = true ∧
  (∀ ch ∈ c.text.data, isLineBreak ch = false) ∧
  (∀ ch, c.text.data.head? = some ch → pyIsSpace ch = false)

/-- Every cue except possibly the last has non-empty text (this is true
of every `parse_srt` result: an empty captured text forces the match to
end at the end of the input). -/
def InitNonempty : List Cue → Prop
  | [] => True
  | c :: tl => (tl = [] ∨ c.text ≠ "") ∧ InitNonempty tl

/-- Same, on raw matches. -/
def RawsInit : List RawCue → Prop
  | [] => True
  | e :: tl => (tl = [] ∨ e.raw ≠ []) ∧ RawsInit tl

/-- The raw matches that scanning the output of `write_srt` produces:
regenerated numbering from `n`, and each cue's timestamps and text
verbatim. -/
def rawsOf : Nat → List Cue → List RawCue
  | _, [] => []
  | n, c :: tl =>
    ⟨natToDec n, c.start.data, c.«end».data, c.text.data⟩ :: rawsOf (n + 1) tl

/-! ## Lemmas: character classes -/

lemma space_not_dig {c : Char} (h : pyIsSpace c = true) : isDig c = false := by
  simp only [pyIsSpace, Bool.or_eq_true, beq_iff_eq] at h
  rcases h with ((((h | h) | h) | h) | h) | h <;> subst h <;> decide

lemma dig_not_space {c : Char} (h : isDig c = true) : pyIsSpace c = false := by
  cases hs : pyIsSpace c with
  | false => rfl
  | true => rw [space_not_dig hs] at h; exact absurd h (by simp)

lemma lb_space {c : Char} (h : isLineBreak c = true) : pyIsSpace c = true := by
  simp only [isLineBreak, Bool.or_eq_true, beq_iff_eq] at h
  rcases h with ((h | h) | h) | h <;> subst h <;> decide

lemma not_space_not_lb {c : Char} (h : pyIsSpace c = false) :
    isLineBreak c = false := by
  cases hl : isLineBreak c with
  | false => rfl
  | true => rw [lb_space hl] at h; exact absurd h (by simp)

/-! ## Lemmas: spanP (greedy character runs) -/

lemma spanP_nil {p : Char → Bool} : spanP p [] = ([], []) := rfl

lemma spanP_cons_pos {p : Char → Bool} {c : Char} {r : List Char}
    (h : p c = true) :
    spanP p (c :: r) = (c :: (spanP p r).1, (spanP p r).2) := by
  simp [spanP, h]

lemma spanP_cons_neg {p : Char → Bool} {c : Char} {r : List Char}
    (h : p c = false) : spanP p (c :: r) = ([], c :: r) := by
  simp [spanP, h]

lemma spanP_append_all {p : Char → Bool} {a : List Char}
    (ha : ∀ c ∈ a, p c = true) (b : List Char) :
    spanP p (a ++ b) = (a ++ (spanP p b).1, (spanP p b).2) := by
  induction a with
  | nil => simp
  | cons x xs ih =>
    have hx : p x = true := ha x (List.mem_cons_self x xs)
    rw [List.cons_append, spanP_cons_pos hx,
      ih (fun c hc => ha c (List.mem_cons_of_mem x hc))]
    rfl

lemma spanP_eq_nil_head {p : Char → Bool} {l : List Char}
    (h : ∀ ch, l.head? = some ch → p ch = false) : spanP p l = ([], l) := by
  cases l with
  | nil => rfl
  | cons c r => exact spanP_cons_neg (h c rfl)

lemma spanP_decomp (p : Char → Bool) (l : List Char) :
    (spanP p l).1 ++ (spanP p l).2 = l := by
  induction l with
  | nil => rfl
  | cons c r ih =>
    cases h : p c with
    | true => rw [spanP_cons_pos h]; simpa using ih
    | false => rw [spanP_cons_neg h]; rfl

lemma spanP_snd_head (p : Char → Bool) (l : List Char) :
    ∀ ch, (spanP p l).2.head? = some ch → p ch = false := by
  induction l with
  | nil => intro ch h; simp [spanP_nil] at h
  | cons c r ih =>
    intro ch h
    cases hc : p c with
    | true => rw [spanP_cons_pos hc] at h; exact ih ch h
    | false =>
      rw [spanP_cons_neg hc] at h
      simp only [List.head?_cons, Option.some.injEq] at h
      rw [← h]; exact hc

lemma spanP_snd_le (p : Char → Bool) (l : List Char) :
    (spanP p l).2.length ≤ l.length := by
  have h := congrArg List.length (spanP_decomp p l)
  rw [List.length_append] at h
  omega

lemma spanP_snd_lt {p : Char → Bool} {l : List Char}
    (h : (spanP p l).1 ≠ []) : (spanP p l).2.length < l.length := by
  have hd := congrArg List.length (spanP_decomp p l)
  rw [List.length_append] at hd
  have : 0 < (spanP p l).1.length := List.length_pos.mpr h
  omega

/-! ## Lemmas: matchPreds / predsMatch -/

lemma matchPreds_pm :
    ∀ {ps : List (Char → Bool)} {l a r : List Char},
      matchPreds ps l = some (a, r) → predsMatch ps a = true ∧ l = a ++ r := by
  intro ps
  induction ps with
  | nil =>
    intro l a r h
    simp only [matchPreds, Option.some.injEq, Prod.mk.injEq] at h
    obtain ⟨rfl, rfl⟩ := h
    exact ⟨rfl, rfl⟩
  | cons p ps ih =>
    intro l a r h
    cases l with
    | nil => simp [matchPreds] at h
    | cons c t =>
      simp only [matchPreds] at h
      cases hc : p c with
      | false => rw [hc] at h; simp at h
      | true =>
        rw [hc] at h
        simp only [if_true, Option.map_eq_some'] at h
        obtain ⟨⟨a', r'⟩, hm, hp⟩ := h
        obtain ⟨hpm, rfl⟩ := ih hm
        simp only [Prod.mk.injEq] at hp
        obtain ⟨rfl, rfl⟩ := hp
        refine ⟨?_, rfl⟩
        simp [predsMatch, hc, hpm]

lemma matchPreds_append {ps : List (Char → Bool)} :
    ∀ {a : List Char}, predsMatch ps a = true →
      ∀ b, matchPreds ps (a ++ b) = some (a, b) := by
  induction ps with
  | nil =>
    intro a h b
    cases a with
    | nil => rfl
    | cons c t => simp [predsMatch] at h
  | cons p ps ih =>
    intro a h b
    cases a with
    | nil => simp [predsMatch] at h
    | cons c t =>
      simp only [predsMatch, Bool.and_eq_true] at h
      obtain ⟨hc, ht⟩ := h
      simp [matchPreds, hc, ih ht b]

lemma matchPreds_snd_le {ps : List (Char → Bool)} {l a r : List Char}
    (h : matchPreds ps l = some (a, r)) : r.length ≤ l.length := by
  obtain ⟨-, rfl⟩ := matchPreds_pm h
  simp

lemma tsPreds_head {a : List Char} (h : predsMatch tsPreds a = true) :
    ∃ c a', a = c :: a' ∧ isDig c = true := by
  cases a with
  | nil => simp [tsPreds, predsMatch] at h
  | cons c a' =>
    refine ⟨c, a', rfl, ?_⟩
    simp only [tsPreds, predsMatch, Bool.and_eq_true] at h
    exact h.1

/-! ## Lemmas: lazyUpToBlank (the lazy group) -/

lemma lazy_nil : lazyUpToBlank [] = ([], []) := rfl

lemma lazy_cons_stop {r : List Char} (h : r.head? = some '\n') :
    lazyUpToBlank ('\n' :: r) = ([], '\n' :: r) := by
  simp [lazyUpToBlank, h]

lemma lazy_cons_go {c : Char} {r : List Char}
    (h : ¬(c = '\n' ∧ r.head? = some '\n')) :
    lazyUpToBlank (c :: r) =
      (c :: (lazyUpToBlank r).1, (lazyUpToBlank r).2) := by
  have hb : (c == '\n' && r.head? == some '\n') = false := by
    rw [Bool.and_eq_false_iff]
    by_cases hc : c = '\n'
    · right; subst hc
      cases hr : r.head? with
      | none => simp
      | some ch =>
        have : ch ≠ '\n' := fun he => h ⟨rfl, by rw [hr, he]⟩
        simp [this]
    · left; simp [hc]
  simp [lazyUpToBlank, hb]

lemma lazy_append_no_nl {t : List Char} (h : '\n' ∉ t) (r : List Char) :
    lazyUpToBlank (t ++ '\n' :: '\n' :: r) = (t, '\n' :: '\n' :: r) := by
  induction t with
  | nil => exact lazy_cons_stop rfl
  | cons c t' ih =>
    have hc : c ≠ '\n' := fun he => h (he ▸ List.mem_cons_self c t')
    rw [List.cons_append, lazy_cons_go (fun hp => hc hp.1),
      ih (fun hm => h (List.mem_cons_of_mem c hm))]

lemma lazy_decomp (l : List Char) :
    (lazyUpToBlank l).1 ++ (lazyUpToBlank l).2 = l := by
  induction l with
  | nil => rfl
  | cons c r ih =>
    by_cases hc : c = '\n' ∧ r.head? = some '\n'
    · rw [hc.1, lazy_cons_stop hc.2]; simp [hc.1]
    · rw [lazy_cons_go hc]; simpa using ih

lemma lazy_snd_le (l : List Char) :
    (lazyUpToBlank l).2.length ≤ l.length := by
  have h := congrArg List.length (lazy_decomp l)
  rw [List.length_append] at h
  omega

lemma lazy_fst_head {l : List Char} {ch : Char} (hh : l.head? = some ch)
    (hs : pyIsSpace ch = false) :
    (lazyUpToBlank l).1.head? = some ch ∧ (lazyUpToBlank l).1 ≠ [] := by
  cases l with
  | nil => simp at hh
  | cons c r =>
    simp only [List.head?_cons, Option.some.injEq] at hh
    have hh' := hh.symm
    subst hh'
    have hns : ch ≠ '\n' := by
      intro he; subst he; exact absurd hs (by decide)
    rw [lazy_cons_go (fun hp => hns hp.1)]
    exact ⟨rfl, by simp⟩

lemma lazy_nil_of_fst_nil {l : List Char}
    (hhead : ∀ ch, l.head? = some ch → pyIsSpace ch = false)
    (h : (lazyUpToBlank l).1 = []) : l = [] ∧ (lazyUpToBlank l).2 = [] := by
  cases l with
  | nil => exact ⟨rfl, rfl⟩
  | cons c r =>
    exfalso
    exact (lazy_fst_head (List.head?_cons) (hhead c rfl)).2 h

/-! ## Lemmas: strip -/

lemma dropWhile_append_singleton {p : Char → Bool} {c : Char}
    (h : p c = false) (xs : List Char) :
    List.dropWhile p (xs ++ [c]) = List.dropWhile p xs ++ [c] := by
  induction xs with
  | nil => simp [List.dropWhile, h]
  | cons x xs ih =>
    cases hx : p x with
    | true => simp [List.dropWhile_cons, hx, ih]
    | false => simp [List.dropWhile_cons, hx]

lemma stripTrailing_cons {c : Char} {r : List Char} (h : pyIsSpace c = false) :
    stripTrailing (c :: r) = c :: stripTrailing r := by
  unfold stripTrailing
  rw [List.reverse_cons, dropWhile_append_singleton h, List.reverse_append]
  simp

lemma stripTrailing_nil : stripTrailing [] = [] := rfl

lemma stripBoth_eq_stripTrailing {l : List Char}
    (h : ∀ ch, l.head? = some ch → pyIsSpace ch = false) :
    stripBoth l = stripTrailing l := by
  cases l with
  | nil => rfl
  | cons c r =>
    have hc := h c rfl
    unfold stripBoth stripTrailing
    rw [List.dropWhile_cons, hc]
    simp

lemma stripBoth_subset {l : List Char} {ch : Char}
    (h : ch ∈ stripBoth l) : ch ∈ l := by
  unfold stripBoth at h
  rw [List.mem_reverse] at h
  have h1 := (List.dropWhile_sublist (l := (l.dropWhile pyIsSpace).reverse)
    (p := pyIsSpace)).subset h
  rw [List.mem_reverse] at h1
  exact (List.dropWhile_sublist (l := l) (p := pyIsSpace)).subset h1

/-! ## Lemmas: splitlines -/

lemma splitAux_no_lb {l : List Char}
    (h : ∀ ch ∈ l, isLineBreak ch = false) :
    ∀ (prevCR : Bool) (acc : List Char),
      pySplitlinesAux prevCR acc l =
        if acc.isEmpty && l.isEmpty then [] else [acc.reverse ++ l] := by
  induction l with
  | nil =>
    intro prevCR acc
    cases acc <;> simp [pySplitlinesAux]
  | cons c r ih =>
    intro prevCR acc
    have hc := h c (List.mem_cons_self c r)
    have hcn : (c == '\n') = false := by
      simp only [isLineBreak, Bool.or_eq_false_iff] at hc
      exact hc.1.1.1
    have hcr : (c == '\r') = false := by
      simp only [isLineBreak, Bool.or_eq_false_iff] at hc
      exact hc.1.1.2
    simp only [pySplitlinesAux, hcn, hcr, hc, Bool.false_eq_true, if_false]
    rw [ih (fun ch hm => h ch (List.mem_cons_of_mem c hm)) false (c :: acc)]
    simp

lemma pySplitlines_no_lb {l : List Char}
    (h : ∀ ch ∈ l, isLineBreak ch = false) :
    pySplitlines l = if l.isEmpty then [] else [l] := by
  unfold pySplitlines
  rw [splitAux_no_lb h false []]
  simp

lemma splitAux_lines_no_lb :
    ∀ (l : List Char) (prevCR : Bool) (acc : List Char),
      (∀ ch ∈ acc, isLineBreak ch = false) →
      ∀ line ∈ pySplitlinesAux prevCR acc l, ∀ ch ∈ line,
        isLineBreak ch = false := by
  intro l
  induction l with
  | nil =>
    intro prevCR acc hacc line hline ch hch
    simp only [pySplitlinesAux] at hline
    by_cases he : acc.isEmpty = true
    · rw [if_pos he] at hline
      simp at hline
    · rw [if_neg he] at hline
      rw [List.mem_singleton] at hline
      subst hline
      exact hacc ch (List.mem_reverse.mp hch)
  | cons c r ih =>
    intro prevCR acc hacc line hline ch hch
    simp only [pySplitlinesAux] at hline
    by_cases h1 : (c == '\n') = true
    · rw [if_pos h1] at hline
      cases prevCR with
      | true =>
        rw [if_pos rfl] at hline
        exact ih false acc hacc line hline ch hch
      | false =>
        rw [if_neg (by simp)] at hline
        rcases List.mem_cons.mp hline with h2 | h2
        · subst h2; exact hacc ch (List.mem_reverse.mp hch)
        · exact ih false [] (by simp) line h2 ch hch
    · rw [if_neg h1] at hline
      by_cases h2 : (c == '\r') = true
      · rw [if_pos h2] at hline
        rcases List.mem_cons.mp hline with h3 | h3
        · subst h3; exact hacc ch (List.mem_reverse.mp hch)
        · exact ih true [] (by simp) line h3 ch hch
      · rw [if_neg h2] at hline
        by_cases h3 : isLineBreak c = true
        · rw [if_pos h3] at hline
          rcases List.mem_cons.mp hline with h4 | h4
          · subst h4; exact hacc ch (List.mem_reverse.mp hch)
          · exact ih false [] (by simp) line h4 ch hch
        · rw [if_neg h3] at hline
          refine ih false (c :: acc) ?_ line hline ch hch
          intro x hx
          rcases List.mem_cons.mp hx with h5 | h5
          · subst h5; exact Bool.eq_false_iff.mpr h3
          · exact hacc x h5

lemma splitAux_first :
    ∀ (l : List Char) (prevCR : Bool) (acc : List Char), acc ≠ [] →
      ∃ t ls, pySplitlinesAux prevCR acc l = (acc.reverse ++ t) :: ls := by
  intro l
  induction l with
  | nil =>
    intro prevCR acc hacc
    refine ⟨[], [], ?_⟩
    simp only [pySplitlinesAux, List.append_nil]
    rw [if_neg (by simpa using hacc)]
  | cons c r ih =>
    intro prevCR acc hacc
    simp only [pySplitlinesAux]
    by_cases h1 : (c == '\n') = true
    · rw [if_pos h1]
      cases prevCR with
      | true =>
        rw [if_pos rfl]
        exact ih false acc hacc
      | false =>
        rw [if_neg (by simp)]
        exact ⟨[], pySplitlinesAux false [] r, by simp⟩
    · rw [if_neg h1]
      by_cases h2 : (c == '\r') = true
      · rw [if_pos h2]
        exact ⟨[], pySplitlinesAux true [] r, by simp⟩
      · rw [if_neg h2]
        by_cases h3 : isLineBreak c = true
        · rw [if_pos h3]
          exact ⟨[], pySplitlinesAux false [] r, by simp⟩
        · rw [if_neg h3]
          obtain ⟨t, ls, ht⟩ := ih false (c :: acc) (by simp)
          refine ⟨c :: t, ls, ?_⟩
          rw [ht]
          simp

lemma pySplitlines_head {ch : Char} {r : List Char}
    (hch : isLineBreak ch = false) :
    ∃ t ls, pySplitlines (ch :: r) = (ch :: t) :: ls := by
  unfold pySplitlines
  have h1 : (ch == '\n') = false := by
    simp only [isLineBreak, Bool.or_eq_false_iff] at hch
    exact hch.1.1.1
  have h2 : (ch == '\r') = false := by
    simp only [isLineBreak, Bool.or_eq_false_iff] at hch
    exact hch.1.1.2
  simp only [pySplitlinesAux, h1, h2, hch, Bool.false_eq_true, if_false]
  obtain ⟨t, ls, ht⟩ := splitAux_first r false [ch] (by simp)
  exact ⟨t, ls, by simpa using ht⟩

/-! ## Lemmas: joinSpace -/

lemma joinSpace_nil : joinSpace [] = [] := rfl

lemma joinSpace_single {x : List Char} : joinSpace [x] = x := rfl

lemma joinSpace_cons2 {x y : List Char} {ys : List (List Char)} :
    joinSpace (x :: y :: ys) = x ++ ' ' :: joinSpace (y :: ys) := rfl

lemma joinSpace_no_lb {ls : List (List Char)}
    (h : ∀ line ∈ ls, ∀ ch ∈ line, isLineBreak ch = false) :
    ∀ ch ∈ joinSpace ls, isLineBreak ch = false := by
  induction ls with
  | nil => intro ch hch; simp [joinSpace_nil] at hch
  | cons x xs ih =>
    intro ch hch
    cases xs with
    | nil =>
      rw [joinSpace_single] at hch
      exact h x (List.mem_cons_self x []) ch hch
    | cons y ys =>
      rw [joinSpace_cons2] at hch
      rcases List.mem_append.mp hch with h1 | h1
      · exact h x (List.mem_cons_self x (y :: ys)) ch h1
      · rcases List.mem_cons.mp h1 with h2 | h2
        · subst h2; decide
        · exact ih (fun line hl => h line (List.mem_cons_of_mem x hl)) ch h2

lemma joinSpace_head {x : List Char} {xs : List (List Char)} (hx : x ≠ []) :
    (joinSpace (x :: xs)).head? = x.head? ∧ joinSpace (x :: xs) ≠ [] := by
  cases xs with
  | nil => rw [joinSpace_single]; exact ⟨rfl, hx⟩
  | cons y ys =>
    rw [joinSpace_cons2]
    cases x with
    | nil => exact absurd rfl hx
    | cons c t => simp

/-! ## Lemmas: cleanText -/

lemma cleanText_clean {raw : List Char}
    (hlb : ∀ ch ∈ raw, isLineBreak ch = false)
    (hh : ∀ ch, raw.head? = some ch → pyIsSpace ch = false) :
    cleanText raw = stripTrailing raw := by
  cases raw with
  | nil => rfl
  | cons c r =>
    unfold cleanText
    rw [pySplitlines_no_lb hlb]
    simp only [List.isEmpty_cons, Bool.false_eq_true, if_false, List.map_cons,
      List.map_nil, joinSpace_single]
    exact stripBoth_eq_stripTrailing hh

lemma cleanText_props {raw : List Char}
    (hh : ∀ ch, raw.head? = some ch → pyIsSpace ch = false) :
    (∀ ch ∈ cleanText raw, isLineBreak ch = false) ∧
    (∀ ch, (cleanText raw).head? = some ch → pyIsSpace ch = false) ∧
    (raw ≠ [] → cleanText raw ≠ []) := by
  refine ⟨?_, ?_⟩
  · intro ch hch
    refine joinSpace_no_lb ?_ ch hch
    intro line hline x hx
    rcases List.mem_map.mp hline with ⟨line0, hl0, rfl⟩
    exact splitAux_lines_no_lb raw false [] (by simp) line0 hl0 x
      (stripBoth_subset hx)
  · cases raw with
    | nil =>
      constructor
      · intro ch h
        have h0 : cleanText ([] : List Char) = [] := rfl
        rw [h0] at h
        simp at h
      · intro h
        exact absurd rfl h
    | cons c r =>
      have hc := hh c rfl
      obtain ⟨t, ls, hs⟩ := pySplitlines_head (not_space_not_lb hc) (r := r)
      have hsb : stripBoth (c :: t) = c :: stripTrailing t := by
        rw [stripBoth_eq_stripTrailing (by intro ch h; simp at h; rw [← h]; exact hc)]
        exact stripTrailing_cons hc
      have hclean : cleanText (c :: r) =
          joinSpace ((c :: stripTrailing t) :: ls.map stripBoth) := by
        unfold cleanText
        rw [hs]
        simp [hsb]
      constructor
      · intro ch h
        rw [hclean] at h
        have := (@joinSpace_head (c :: stripTrailing t) (ls.map stripBoth) (by simp)).1
        rw [this] at h
        simp only [List.head?_cons, Option.some.injEq] at h
        rw [← h]; exact hc
      · intro _
        rw [hclean]
        exact (joinSpace_head (by simp)).2

/-! ## Lemmas: matchAt -/

lemma lazy_fst_head_prop {X : List Char}
    (hX : ∀ ch, X.head? = some ch → pyIsSpace ch = false) :
    ∀ ch, (lazyUpToBlank X).1.head? = some ch → pyIsSpace ch = false := by
  cases X with
  | nil => intro ch h; simp [lazy_nil] at h
  | cons c r =>
    have hc := hX c rfl
    have hcn : c ≠ '\n' := by
      intro he; subst he; exact absurd hc (by decide)
    rw [lazy_cons_go (fun hp => hcn hp.1)]
    intro ch h
    simp only [List.head?_cons, Option.some.injEq] at h
    rw [← h]; exact hc

lemma matchAt_nondigit {c : Char} {l : List Char} (h : isDig c = false) :
    matchAt (c :: l) = none := by
  simp [matchAt, spanP_cons_neg h]

lemma matchAt_spec {l : List Char} {e : RawCue} {rest : List Char}
    (h : matchAt l = some (e, rest)) :
    predsMatch tsPreds e.tstart = true ∧ predsMatch tsPreds e.tend = true ∧
    (∀ ch, e.raw.head? = some ch → pyIsSpace ch = false) ∧
    (e.raw = [] → rest = []) ∧ rest.length < l.length := by
  unfold matchAt at h
  by_cases h1 : (spanP isDig l).1.isEmpty = true
  · rw [if_pos h1] at h; exact absurd h (by simp)
  rw [if_neg h1] at h
  by_cases h2 : (spanP pyIsSpace (spanP isDig l).2).1.isEmpty = true
  · rw [if_pos h2] at h; exact absurd h (by simp)
  rw [if_neg h2] at h
  rcases hm1 : matchPreds tsPreds (spanP pyIsSpace (spanP isDig l).2).2 with
    _ | ⟨ts1, r3⟩
  · rw [hm1] at h; exact absurd h (by simp)
  rw [hm1] at h
  dsimp only at h
  rcases hm2 : matchPreds arrowPreds r3 with _ | ⟨ar, r4⟩
  · rw [hm2] at h; exact absurd h (by simp)
  rw [hm2] at h
  dsimp only at h
  rcases hm3 : matchPreds tsPreds r4 with _ | ⟨ts2, r5⟩
  · rw [hm3] at h; exact absurd h (by simp)
  rw [hm3] at h
  dsimp only at h
  by_cases h4 : (spanP pyIsSpace r5).1.isEmpty = true
  · rw [if_pos h4] at h; exact absurd h (by simp)
  rw [if_neg h4] at h
  simp only [Option.some.injEq, Prod.mk.injEq] at h
  obtain ⟨he, hrest⟩ := h
  subst he
  subst hrest
  have hw2head := spanP_snd_head pyIsSpace r5
  refine ⟨(matchPreds_pm hm1).1, (matchPreds_pm hm3).1, ?_, ?_, ?_⟩
  · exact lazy_fst_head_prop hw2head
  · intro hraw
    exact (lazy_nil_of_fst_nil hw2head hraw).2
  · have c1 := lazy_snd_le (spanP pyIsSpace r5).2
    have c2 := spanP_snd_le pyIsSpace r5
    have c3 := matchPreds_snd_le hm3
    have c4 := matchPreds_snd_le hm2
    have c5 := matchPreds_snd_le hm1
    have c6 := spanP_snd_le pyIsSpace (spanP isDig l).2
    have c7 : (spanP isDig l).2.length < l.length := by
      refine spanP_snd_lt ?_
      intro hnil
      exact h1 (by simp [hnil])
    omega

/-! ## Lemmas: the decimal numerals written by write_srt -/

lemma digitChar_dig (n : Nat) : isDig (digitChar n) = true := by
  rcases n with _ | _ | _ | _ | _ | _ | _ | _ | _ | n <;> rfl

lemma natToDecAux_digits :
    ∀ (f n : Nat), ∀ ch ∈ natToDecAux f n, isDig ch = true := by
  intro f
  induction f with
  | zero => intro n ch h; simp [natToDecAux] at h
  | succ f ih =>
    intro n ch h
    simp only [natToDecAux] at h
    by_cases hn : n < 10
    · rw [if_pos hn] at h
      rw [List.mem_singleton] at h
      subst h
      exact digitChar_dig n
    · rw [if_neg hn] at h
      rcases List.mem_append.mp h with h1 | h1
      · exact ih (n / 10) ch h1
      · rw [List.mem_singleton] at h1
        subst h1
        exact digitChar_dig (n % 10)

lemma natToDec_digits (n : Nat) : ∀ ch ∈ natToDec n, isDig ch = true :=
  natToDecAux_digits (n + 1) n

lemma natToDec_ne_nil (n : Nat) : natToDec n ≠ [] := by
  unfold natToDec natToDecAux
  by_cases hn : n < 10
  · rw [if_pos hn]; simp
  · rw [if_neg hn]; simp

/-! ## Lemmas: scanAux -/

lemma scanAux_nil : ∀ f, scanAux f [] = [] := by
  intro f; cases f <;> rfl

lemma scanAux_cons_some {c : Char} {r rest : List Char} {e : RawCue}
    (h : matchAt (c :: r) = some (e, rest)) (f : Nat) :
    scanAux (f + 1) (c :: r) = e :: scanAux f rest := by
  simp [scanAux, h]

lemma scanAux_cons_none {c : Char} {r : List Char}
    (h : matchAt (c :: r) = none) (f : Nat) :
    scanAux (f + 1) (c :: r) = scanAux f r := by
  simp [scanAux, h]

lemma scanAux_fuel :
    ∀ (f : Nat) (l : List Char) (g : Nat),
      l.length ≤ f → l.length ≤ g → scanAux f l = scanAux g l := by
  intro f
  induction f with
  | zero =>
    intro l g h1 _
    have hl : l = [] := List.eq_nil_of_length_eq_zero (Nat.le_zero.mp h1)
    subst hl
    rw [scanAux_nil, scanAux_nil]
  | succ f ih =>
    intro l g h1 h2
    cases l with
    | nil => rw [scanAux_nil, scanAux_nil]
    | cons c r =>
      cases g with
      | zero => simp at h2
      | succ g =>
        cases hm : matchAt (c :: r) with
        | none =>
          rw [scanAux_cons_none hm, scanAux_cons_none hm]
          simp only [List.length_cons] at h1 h2
          exact ih r g (by omega) (by omega)
        | some pr =>
          obtain ⟨e, rest⟩ := pr
          rw [scanAux_cons_some hm, scanAux_cons_some hm]
          have hlt := (matchAt_spec hm).2.2.2.2
          simp only [List.length_cons] at h1 h2 hlt
          exact congrArg (e :: ·) (ih rest g (by omega) (by omega))

lemma scanAux_props :
    ∀ (f : Nat) (l : List Char), ∀ e ∈ scanAux f l,
      predsMatch tsPreds e.tstart = true ∧
      predsMatch tsPreds e.tend = true ∧
      (∀ ch, e.raw.head? = some ch → pyIsSpace ch = false) := by
  intro f
  induction f with
  | zero => intro l e h; simp [scanAux] at h
  | succ f ih =>
    intro l e h
    cases l with
    | nil => rw [scanAux_nil] at h; simp at h
    | cons c r =>
      cases hm : matchAt (c :: r) with
      | none =>
        rw [scanAux_cons_none hm] at h
        exact ih r e h
      | some pr =>
        obtain ⟨e', rest⟩ := pr
        rw [scanAux_cons_some hm] at h
        rcases List.mem_cons.mp h with h1 | h1
        · subst h1
          have hs := matchAt_spec hm
          exact ⟨hs.1, hs.2.1, hs.2.2.1⟩
        · exact ih rest e h1

lemma scanAux_init : ∀ (f : Nat) (l : List Char), RawsInit (scanAux f l) := by
  intro f
  induction f with
  | zero => intro l; simp [scanAux, RawsInit]
  | succ f ih =>
    intro l
    cases l with
    | nil => rw [scanAux_nil]; simp [RawsInit]
    | cons c r =>
      cases hm : matchAt (c :: r) with
      | none => rw [scanAux_cons_none hm]; exact ih r
      | some pr =>
        obtain ⟨e, rest⟩ := pr
        rw [scanAux_cons_some hm]
        refine ⟨?_, ih rest⟩
        by_cases he : e.raw = []
        · left
          have hrest := (matchAt_spec hm).2.2.2.1 he
          subst hrest
          exact scanAux_nil f
        · right; exact he

/-! ## Lemmas: matching one written cue block -/

lemma matchAt_block_gen {nd s e t : List Char}
    (hnd : ∀ ch ∈ nd, isDig ch = true) (hnd0 : nd ≠ [])
    (hs : predsMatch tsPreds s = true) (he : predsMatch tsPreds e = true)
    (htlb : ∀ ch ∈ t, isLineBreak ch = false)
    (hth : ∀ ch, t.head? = some ch → pyIsSpace ch = false)
    (ht0 : t ≠ []) (rest : List Char) :
    matchAt (nd ++ '\n' :: (s ++ ([' ', '-', '-', '>', ' '] ++
        (e ++ '\n' :: (t ++ '\n' :: '\n' :: rest))))) =
      some (⟨nd, s, e, t⟩, '\n' :: '\n' :: rest) := by
  have hshead : ∀ ch,
      (s ++ ([' ', '-', '-', '>', ' '] ++
        (e ++ '\n' :: (t ++ '\n' :: '\n' :: rest)))).head? = some ch →
      pyIsSpace ch = false := by
    obtain ⟨c0, s', hs_eq, hc0⟩ := tsPreds_head hs
    intro ch hch
    rw [hs_eq] at hch
    simp only [List.cons_append, List.head?_cons, Option.some.injEq] at hch
    rw [← hch]
    exact dig_not_space hc0
  have hthead : ∀ ch, (t ++ '\n' :: '\n' :: rest).head? = some ch →
      pyIsSpace ch = false := by
    cases t with
    | nil => exact absurd rfl ht0
    | cons tc t' =>
      intro ch hch
      simp only [List.cons_append, List.head?_cons, Option.some.injEq] at hch
      rw [← hch]
      exact hth tc rfl
  have hnl : '\n' ∉ t := by
    intro hm
    have := htlb '\n' hm
    exact absurd this (by decide)
  unfold matchAt
  rw [spanP_append_all hnd, spanP_cons_neg (show isDig '\n' = false by decide)]
  dsimp only
  rw [if_neg (by simpa [List.isEmpty_iff] using hnd0)]
  rw [spanP_cons_pos (show pyIsSpace '\n' = true by decide),
    spanP_eq_nil_head hshead]
  dsimp only
  rw [if_neg (by simp)]
  rw [matchPreds_append hs]
  dsimp only
  rw [matchPreds_append (show predsMatch arrowPreds
    [' ', '-', '-', '>', ' '] = true by decide)]
  dsimp only
  rw [matchPreds_append he]
  dsimp only
  rw [spanP_cons_pos (show pyIsSpace '\n' = true by decide),
    spanP_eq_nil_head hthead]
  dsimp only
  rw [if_neg (by simp)]
  rw [lazy_append_no_nl hnl rest]
  simp

lemma matchAt_block_empty_gen {nd s e : List Char}
    (hnd : ∀ ch ∈ nd, isDig ch = true) (hnd0 : nd ≠ [])
    (hs : predsMatch tsPreds s = true) (he : predsMatch tsPreds e = true) :
    matchAt (nd ++ '\n' :: (s ++ ([' ', '-', '-', '>', ' '] ++
        (e ++ '\n' :: '\n' :: '\n' :: [])))) =
      some (⟨nd, s, e, []⟩, []) := by
  have hshead : ∀ ch,
      (s ++ ([' ', '-', '-', '>', ' '] ++
        (e ++ '\n' :: '\n' :: '\n' :: []))).head? = some ch →
      pyIsSpace ch = false := by
    obtain ⟨c0, s', hs_eq, hc0⟩ := tsPreds_head hs
    intro ch hch
    rw [hs_eq] at hch
    simp only [List.cons_append, List.head?_cons, Option.some.injEq] at hch
    rw [← hch]
    exact dig_not_space hc0
  unfold matchAt
  rw [spanP_append_all hnd, spanP_cons_neg (show isDig '\n' = false by decide)]
  dsimp only
  rw [if_neg (by simpa [List.isEmpty_iff] using hnd0)]
  rw [spanP_cons_pos (show pyIsSpace '\n' = true by decide),
    spanP_eq_nil_head hshead]
  dsimp only
  rw [if_neg (by simp)]
  rw [matchPreds_append hs]
  dsimp only
  rw [matchPreds_append (show predsMatch arrowPreds
    [' ', '-', '-', '>', ' '] = true by decide)]
  dsimp only
  rw [matchPreds_append he]
  dsimp only
  rw [show spanP pyIsSpace ['\n', '\n', '\n'] = (['\n', '\n', '\n'], [])
    by decide]
  dsimp only
  rw [if_neg (by simp)]
  simp [lazy_nil]

lemma matchAt_cueBlock {c : Cue} (hC : CleanCue c)
    (ht0 : c.text.data ≠ []) (n : Nat) (rest : List Char) :
    matchAt (cueBlock n c ++ rest) =
      some (⟨natToDec n, c.start.data, c.«end».data, c.text.data⟩,
        '\n' :: '\n' :: rest) := by
  have hform : cueBlock n c ++ rest =
      natToDec n ++ '\n' :: (c.start.data ++ ([' ', '-', '-', '>', ' '] ++
        (c.«end».data ++ '\n' :: (c.text.data ++ '\n' :: '\n' :: rest)))) := by
    simp [cueBlock]
  rw [hform]
  exact matchAt_block_gen (natToDec_digits n) (natToDec_ne_nil n)
    hC.1 hC.2.1 hC.2.2.1 hC.2.2.2 ht0 rest

lemma matchAt_cueBlock_emptyT {c : Cue} (hC : CleanCue c)
    (ht : c.text.data = []) (n : Nat) :
    matchAt (cueBlock n c) =
      some (⟨natToDec n, c.start.data, c.«end».data, []⟩, []) := by
  have hform : cueBlock n c =
      natToDec n ++ '\n' :: (c.start.data ++ ([' ', '-', '-', '>', ' '] ++
        (c.«end».data ++ '\n' :: '\n' :: '\n' :: []))) := by
    simp [cueBlock, ht]
  rw [hform]
  exact matchAt_block_empty_gen (natToDec_digits n) (natToDec_ne_nil n)
    hC.1 hC.2.1

/-! ## The scan of a written buffer -/

lemma string_data_nil {s : String} (h : s.data = []) : s = "" := by
  cases s
  simp only [String.data] at h
  subst h
  rfl

lemma cueBlock_ne_nil (n : Nat) (c : Cue) : cueBlock n c ≠ [] := by
  unfold cueBlock
  intro h
  rcases hd : natToDec n with _ | ⟨b, bs⟩
  · exact natToDec_ne_nil n hd
  · rw [hd] at h
    simp at h

lemma cueBlock_len_ge (n : Nat) (c : Cue) : 3 ≤ (cueBlock n c).length := by
  have h1 : natToDec n ≠ [] := natToDec_ne_nil n
  have h2 : 0 < (natToDec n).length := List.length_pos.mpr h1
  simp only [cueBlock, List.length_append, List.length_cons]
  omega

lemma writeChars_scan :
    ∀ (L : List Cue) (n f : Nat), (∀ c ∈ L, CleanCue c) → InitNonempty L →
      (writeChars n L).length ≤ f → scanAux f (writeChars n L) = rawsOf n L := by
  intro L
  induction L with
  | nil =>
    intro n f _ _ _
    simp only [writeChars, rawsOf]
    exact scanAux_nil f
  | cons c tl ih =>
    intro n f hclean hinit hf
    have hC := hclean c (List.mem_cons_self c tl)
    have hwc : writeChars n (c :: tl) = cueBlock n c ++ writeChars (n + 1) tl :=
      rfl
    by_cases ht : c.text.data = []
    · -- empty text: this is the final cue of the buffer
      have htl : tl = [] := by
        rcases hinit.1 with h | h
        · exact h
        · exact absurd (string_data_nil ht) h
      subst htl
      have hw1 : writeChars n [c] = cueBlock n c := by
        simp [writeChars]
      rw [hw1] at hf ⊢
      have hm := matchAt_cueBlock_emptyT hC ht n
      obtain ⟨b, bs, hb⟩ : ∃ b bs, cueBlock n c = b :: bs := by
        rcases hcb : cueBlock n c with _ | ⟨b, bs⟩
        · exact absurd hcb (cueBlock_ne_nil n c)
        · exact ⟨b, bs, rfl⟩
      cases f with
      | zero =>
        rw [hb] at hf
        simp at hf
      | succ f =>
        rw [hb] at hm ⊢
        rw [scanAux_cons_some hm f, scanAux_nil f]
        simp [rawsOf, ht]
    · -- non-empty text: match this block, skip the separator, recurse
      have hm := matchAt_cueBlock hC ht n (writeChars (n + 1) tl)
      obtain ⟨b, bs, hb⟩ : ∃ b bs,
          cueBlock n c ++ writeChars (n + 1) tl = b :: bs := by
        rcases hcb : cueBlock n c ++ writeChars (n + 1) tl with _ | ⟨b, bs⟩
        · rcases List.append_eq_nil.mp hcb with ⟨h1, -⟩
          exact absurd h1 (cueBlock_ne_nil n c)
        · exact ⟨b, bs, rfl⟩
      have hlen : (cueBlock n c).length + (writeChars (n + 1) tl).length ≤ f := by
        rw [hwc] at hf
        rw [List.length_append] at hf
        exact hf
      have hblock := cueBlock_len_ge n c
      obtain ⟨k, hk⟩ := Nat.exists_eq_add_of_le
        (show 2 + (writeChars (n + 1) tl).length + 1 ≤ f by omega)
      have hf_form : f = ((writeChars (n + 1) tl).length + k + 1) + 1 + 1 := by
        omega
      rw [hb] at hm
      rw [hf_form, hwc, hb]
      rw [scanAux_cons_some hm]
      rw [scanAux_cons_none
        (matchAt_nondigit (show isDig '\n' = false by decide))]
      rw [scanAux_cons_none
        (matchAt_nondigit (show isDig '\n' = false by decide))]
      rw [ih (n + 1) ((writeChars (n + 1) tl).length + k)
        (fun x hx => hclean x (List.mem_cons_of_mem c hx)) hinit.2
        (by omega)]
      rfl

/-! ## Lemmas: shape of parse_srt results, and the round trip -/

lemma parse_clean (src : String) : ∀ c ∈ parse_srt src, CleanCue c := by
  intro c hc
  rcases List.mem_map.mp hc with ⟨e, he, rfl⟩
  have hp := scanAux_props _ _ e he
  exact ⟨hp.1, hp.2.1, (cleanText_props hp.2.2).1, (cleanText_props hp.2.2).2.1⟩

lemma rawsInit_map_init {rs : List RawCue}
    (hp : ∀ e ∈ rs, ∀ ch, e.raw.head? = some ch → pyIsSpace ch = false)
    (h : RawsInit rs) : InitNonempty (rs.map rawToCue) := by
  induction rs with
  | nil => simp [InitNonempty]
  | cons e tl ih =>
    obtain ⟨h1, h2⟩ := h
    refine ⟨?_, ih (fun x hx ch => hp x (List.mem_cons_of_mem e hx) ch) h2⟩
    rcases h1 with h1 | h1
    · left; rw [h1]; rfl
    · right
      intro hempty
      have hdata : cleanText e.raw = [] := by
        have := congrArg String.data hempty
        simpa using this
      exact (cleanText_props (hp e (List.mem_cons_self e tl))).2.2 h1 hdata

lemma parse_init (src : String) : InitNonempty (parse_srt src) := by
  apply rawsInit_map_init
  · intro e he ch
    exact (scanAux_props _ _ e he).2.2 ch
  · exact scanAux_init _ _

lemma rawsOf_proj :
    ∀ (L : List Cue), (∀ c ∈ L, CleanCue c) → ∀ n,
      ((rawsOf n L).map rawToCue).map (·.start) = L.map (·.start) ∧
      ((rawsOf n L).map rawToCue).map (·.«end») = L.map (·.«end») ∧
      ((rawsOf n L).map rawToCue).map (·.text) =
        L.map (fun c => stripTrailingStr c.text) ∧
      ((rawsOf n L).map rawToCue).length = L.length := by
  intro L
  induction L with
  | nil => intro _ n; simp [rawsOf]
  | cons c tl ih =>
    intro h n
    have hC := h c (List.mem_cons_self c tl)
    obtain ⟨ih1, ih2, ih3, ih4⟩ :=
      ih (fun x hx => h x (List.mem_cons_of_mem c hx)) (n + 1)
    have htext :
        (rawToCue ⟨natToDec n, c.start.data, c.«end».data, c.text.data⟩).text =
          stripTrailingStr c.text := by
      show (⟨cleanText c.text.data⟩ : String) = stripTrailingStr c.text
      rw [cleanText_clean hC.2.2.1 hC.2.2.2]
      rfl
    refine ⟨?_, ?_, ?_, ?_⟩
    · simp only [rawsOf, List.map_cons, ih1]
      rfl
    · simp only [rawsOf, List.map_cons, ih2]
      rfl
    · simp only [rawsOf, List.map_cons, ih3, htext]
    · simp only [rawsOf, List.map_cons, List.length_cons, ih4]

lemma parse_write_parse (L : List Cue) (hclean : ∀ c ∈ L, CleanCue c)
    (hinit : InitNonempty L) :
    parse_srt (write_srt L) = (rawsOf 1 L).map rawToCue := by
  show (scanAux (write_srt L).data.length (write_srt L).data).map rawToCue = _
  have hdata : (write_srt L).data = writeChars 1 L := rfl
  rw [hdata, writeChars_scan L 1 (writeChars 1 L).length hclean hinit
    (Nat.le_refl _)]

/-! ## Lemmas: the translation loop -/

lemma translate_go_fst (tr : String → String) (subs : List Cue) :
    (translate_lines_go tr subs).1 = subs.map (fun s =>
      { num := "", start := s.start, «end» := s.«end»,
        text := if (stripBoth s.text.data).isEmpty then "" else tr s.text }) := by
  induction subs with
  | nil => rfl
  | cons s rest ih =>
    simp only [translate_lines_go, List.map_cons]
    by_cases h : (stripBoth s.text.data).isEmpty = true
    · rw [if_pos h, if_pos h]
      simpa using ih
    · rw [if_neg h, if_neg h]
      simpa using ih

lemma translate_go_snd (tr : String → String) (subs : List Cue) :
    (translate_lines_go tr subs).2 =
      (subs.filter (fun s => !(stripBoth s.text.data).isEmpty)).map (·.text) := by
  induction subs with
  | nil => rfl
  | cons s rest ih =>
    simp only [translate_lines_go, List.filter_cons]
    by_cases h : (stripBoth s.text.data).isEmpty = true
    · rw [if_pos h]
      simpa [h] using ih
    · rw [if_neg h]
      simpa [h] using ih

/-! ## Lemmas: the polish loop -/

lemma polish_go_fst (complete : String → Except String String) (lang : String)
    (txts : List String) :
    (polish_texts_go complete lang txts).1 =
      txts.map (fun t => (polishOne complete lang t).1) := by
  induction txts with
  | nil => rfl
  | cons t ts ih => simp only [polish_texts_go, List.map_cons, ih]

lemma polish_go_snd (complete : String → Except String String) (lang : String)
    (txts : List String) :
    (polish_texts_go complete lang txts).2 =
      (txts.map (fun t => (polishOne complete lang t).2)).flatten := by
  induction txts with
  | nil => rfl
  | cons t ts ih =>
    simp only [polish_texts_go, List.map_cons, List.flatten_cons, ih]

lemma polish_texts_as_map (complete : String → Except String String)
    (ts : List Cue) (lang : String) :
    polish_texts complete ts lang = ts.map (fun t =>
      { num := "", start := t.start, «end» := t.«end»,
        text := (polishOne complete lang t.text).1 }) := by
  apply List.ext
  intro i
  simp only [polish_texts, List.get?_map]
  by_cases hi : i < ts.length
  · rw [List.get?_range hi, Option.map_some']
    obtain ⟨t, ht⟩ : ∃ t, ts.get? i = some t :=
      ⟨ts.get ⟨i, hi⟩, List.get?_eq_get hi⟩
    rw [polish_go_fst, List.get?_map, List.get?_map, ht]
    rfl
  · have hge : ts.length ≤ i := Nat.not_lt.mp hi
    rw [List.get?_eq_none.mpr (by simpa using hge),
      List.get?_eq_none.mpr hge]
    rfl

lemma polishWarnings_eq (complete : String → Except String String)
    (ts : List Cue) (lang : String) :
    polishWarnings complete ts lang =
      ((ts.map (·.text)).map (fun t => (polishOne complete lang t).2)).flatten := by
  unfold polishWarnings
  rw [polish_go_snd]

/-! ## Lemmas: the DOCX table -/

lemma cellValue_error {tr : List (String × List Cue)} {lang : String} {i : Nat}
    {e : PyError} (h : cellValue tr lang i = .error e) : e = .indexError := by
  unfold cellValue at h
  cases hl : tr.lookup lang with
  | none =>
    rw [hl] at h
    exact absurd h (by simp)
  | some buf =>
    rw [hl] at h
    dsimp only at h
    cases hb : buf.get? i with
    | none =>
      rw [hb] at h
      dsimp only at h
      simp only [Except.error.injEq] at h
      exact h.symm
    | some c =>
      rw [hb] at h
      exact absurd h (by simp)

lemma cellValue_ok_of_lt {tr : List (String × List Cue)} {lang : String}
    {i : Nat} (H : ∀ buf, tr.lookup lang = some buf → i < buf.length) :
    cellValue tr lang i = .ok (specCell tr lang i) := by
  unfold cellValue specCell
  cases hl : tr.lookup lang with
  | none => rfl
  | some buf =>
    have hi := H buf hl
    obtain ⟨c, hc⟩ : ∃ c, buf.get? i = some c :=
      ⟨buf.get ⟨i, hi⟩, List.get?_eq_get hi⟩
    dsimp only
    rw [hc]

lemma cells_ok {tr : List (String × List Cue)} {i : Nat} {langs : List String}
    (H : ∀ lang ∈ langs, ∀ buf, tr.lookup lang = some buf → i < buf.length) :
    langs.mapM (fun lang => cellValue tr lang i) =
      .ok (langs.map (fun lang => specCell tr lang i)) := by
  induction langs with
  | nil => rfl
  | cons a as ih =>
    rw [List.mapM_cons,
      cellValue_ok_of_lt (H a (List.mem_cons_self a as)),
      ih (fun lang hl => H lang (List.mem_cons_of_mem a hl))]
    rfl

lemma cells_err_val {tr : List (String × List Cue)} {i : Nat} :
    ∀ (langs : List String) (e : PyError),
      langs.mapM (fun lang => cellValue tr lang i) = .error e →
      e = .indexError := by
  intro langs
  induction langs with
  | nil =>
    intro e h
    have h' : (Except.ok [] : Except PyError (List String)) = .error e := h
    exact absurd h' (by simp)
  | cons a as ih =>
    intro e h
    rw [List.mapM_cons] at h
    cases hc : cellValue tr a i with
    | error e' =>
      rw [hc] at h
      have h' : (Except.error e' : Except PyError (List String)) = .error e := h
      have he : e = e' := by
        simp only [Except.error.injEq] at h'
        exact h'.symm
      rw [he]
      exact cellValue_error hc
    | ok v =>
      rw [hc] at h
      cases hm : as.mapM (fun lang => cellValue tr lang i) with
      | error e'' =>
        rw [hm] at h
        have h' : (Except.error e'' : Except PyError (List String)) = .error e := h
        have he : e = e'' := by
          simp only [Except.error.injEq] at h'
          exact h'.symm
        rw [he]
        exact ih e'' hm
      | ok vs =>
        rw [hm] at h
        have h' : (Except.ok (v :: vs) : Except PyError (List String)) = .error e := h
        exact absurd h' (by simp)

lemma cells_err_exists {tr : List (String × List Cue)} {i : Nat}
    {lang : String} {buf : List Cue} :
    ∀ (langs : List String), lang ∈ langs → tr.lookup lang = some buf →
      buf.length ≤ i →
      ∃ e, langs.mapM (fun l => cellValue tr l i) = .error e := by
  intro langs
  induction langs with
  | nil => intro h; simp at h
  | cons a as ih =>
    intro hmem hlk hlen
    rw [List.mapM_cons]
    rcases List.mem_cons.mp hmem with h1 | h1
    · subst h1
      have hcell : cellValue tr lang i = .error .indexError := by
        unfold cellValue
        rw [hlk]
        dsimp only
        rw [List.get?_eq_none.mpr hlen]
      rw [hcell]
      exact ⟨.indexError, rfl⟩
    · cases hc : cellValue tr a i with
      | error e' => exact ⟨e', rfl⟩
      | ok v =>
        obtain ⟨e, he⟩ := ih h1 hlk hlen
        rw [he]
        exact ⟨e, rfl⟩

lemma buildRow_ok {tr : List (String × List Cue)} {langs : List String}
    {i : Nat}
    (Hi : ∀ lang ∈ langs, ∀ buf, tr.lookup lang = some buf → i < buf.length)
    (entry : Cue) :
    buildRow tr langs i entry =
      .ok ((entry.start ++ " --> " ++ entry.«end») ::
        langs.map (fun l => specCell tr l i) ++ [entry.text]) := by
  unfold buildRow
  rw [cells_ok Hi]
  rfl

lemma buildRow_err_val {tr : List (String × List Cue)} {langs : List String}
    {i : Nat} {entry : Cue} {e : PyError}
    (h : buildRow tr langs i entry = .error e) : e = .indexError := by
  unfold buildRow at h
  cases hc : langs.mapM (fun lang => cellValue tr lang i) with
  | error e' =>
    rw [hc] at h
    have h' : (Except.error e' : Except PyError (List String)) = .error e := h
    simp only [Except.error.injEq] at h'
    rw [← h']
    exact cells_err_val langs e' hc
  | ok cells =>
    rw [hc] at h
    have h' : (Except.ok ((entry.start ++ " --> " ++ entry.«end») ::
      cells ++ [entry.text]) : Except PyError (List String)) = .error e := h
    exact absurd h' (by simp)

lemma buildRow_err_exists {tr : List (String × List Cue)} {langs : List String}
    {i : Nat} {lang : String} {buf : List Cue} (hmem : lang ∈ langs)
    (hlk : tr.lookup lang = some buf) (hlen : buf.length ≤ i) (entry : Cue) :
    buildRow tr langs i entry = .error .indexError := by
  obtain ⟨e, he⟩ := cells_err_exists langs hmem hlk hlen
  have hv := cells_err_val langs e he
  subst hv
  unfold buildRow
  rw [he]
  rfl

lemma rows_ok {tr : List (String × List Cue)} {langs : List String} :
    ∀ (ps : List (Nat × Cue)),
      (∀ p ∈ ps, ∀ lang ∈ langs, ∀ buf,
        tr.lookup lang = some buf → p.1 < buf.length) →
      ps.mapM (fun p => buildRow tr langs p.1 p.2) =
        .ok (ps.map (fun p => (p.2.start ++ " --> " ++ p.2.«end») ::
          langs.map (fun l => specCell tr l p.1) ++ [p.2.text])) := by
  intro ps
  induction ps with
  | nil => intro _; rfl
  | cons p ps ih =>
    intro H
    rw [List.mapM_cons,
      buildRow_ok (H p (List.mem_cons_self p ps)) p.2,
      ih (fun q hq => H q (List.mem_cons_of_mem p hq))]
    rfl

lemma rows_err_val {tr : List (String × List Cue)} {langs : List String} :
    ∀ (ps : List (Nat × Cue)) (e : PyError),
      ps.mapM (fun p => buildRow tr langs p.1 p.2) = .error e →
      e = .indexError := by
  intro ps
  induction ps with
  | nil =>
    intro e h
    have h' : (Except.ok [] : Except PyError (List (List String))) = .error e := h
    exact absurd h' (by simp)
  | cons p ps ih =>
    intro e h
    rw [List.mapM_cons] at h
    cases hc : buildRow tr langs p.1 p.2 with
    | error e' =>
      rw [hc] at h
      have h' : (Except.error e' :
        Except PyError (List (List String))) = .error e := h
      simp only [Except.error.injEq] at h'
      rw [← h']
      exact buildRow_err_val hc
    | ok v =>
      rw [hc] at h
      cases hm : ps.mapM (fun p => buildRow tr langs p.1 p.2) with
      | error e'' =>
        rw [hm] at h
        have h' : (Except.error e'' :
          Except PyError (List (List String))) = .error e := h
        simp only [Except.error.injEq] at h'
        rw [← h']
        exact ih e'' hm
      | ok vs =>
        rw [hm] at h
        have h' : (Except.ok (v :: vs) :
          Except PyError (List (List String))) = .error e := h
        exact absurd h' (by simp)

lemma rows_err_exists {tr : List (String × List Cue)} {langs : List String}
    {q : Nat × Cue} :
    ∀ (ps : List (Nat × Cue)), q ∈ ps →
      buildRow tr langs q.1 q.2 = .error .indexError →
      ∃ e, ps.mapM (fun p => buildRow tr langs p.1 p.2) = .error e := by
  intro ps
  induction ps with
  | nil => intro h; simp at h
  | cons p ps ih =>
    intro hmem hq
    rw [List.mapM_cons]
    rcases List.mem_cons.mp hmem with h1 | h1
    · subst h1
      rw [hq]
      exact ⟨.indexError, rfl⟩
    · cases hc : buildRow tr langs p.1 p.2 with
      | error e' => exact ⟨e', rfl⟩
      | ok v =>
        obtain ⟨e, he⟩ := ih h1 hq
        rw [he]
        exact ⟨e, rfl⟩

lemma mapM_rows_ok_forall {tr : List (String × List Cue)}
    {langs : List String} :
    ∀ (ps : List (Nat × Cue)) (rows : List (List String)),
      ps.mapM (fun p => buildRow tr langs p.1 p.2) = .ok rows →
      ∀ p ∈ ps, ∃ y, buildRow tr langs p.1 p.2 = .ok y := by
  intro ps
  induction ps with
  | nil => intro rows _ p hp; simp at hp
  | cons p ps ih =>
    intro rows h q hq
    rw [List.mapM_cons] at h
    cases hc : buildRow tr langs p.1 p.2 with
    | error e' =>
      rw [hc] at h
      have h' : (Except.error e' :
        Except PyError (List (List String))) = .ok rows := h
      exact absurd h' (by simp)
    | ok v =>
      rw [hc] at h
      rcases List.mem_cons.mp hq with h1 | h1
      · subst h1; exact ⟨v, hc⟩
      · cases hm : ps.mapM (fun p => buildRow tr langs p.1 p.2) with
        | error e'' =>
          rw [hm] at h
          have h' : (Except.error e'' :
            Except PyError (List (List String))) = .ok rows := h
          exact absurd h' (by simp)
        | ok vs => exact ih vs hm q h1

/-! ## Lemmas: write_docx assembled -/

lemma write_docx_ok {o : List Cue} {tr : List (String × List Cue)}
    {langs : List String} {lg : String}
    (H : ∀ lang ∈ langs, ∀ buf, tr.lookup lang = some buf →
      o.length ≤ buf.length) :
    write_docx o tr langs lg = .ok (docxTableSpec o tr langs lg) := by
  unfold write_docx docxTableSpec
  rw [rows_ok o.enum (fun p hp lang hl buf hb =>
    lt_of_lt_of_le (List.fst_lt_of_mem_enum hp) (H lang hl buf hb))]
  rfl

lemma write_docx_err_val {o : List Cue} {tr : List (String × List Cue)}
    {langs : List String} {lg : String} {e : PyError}
    (h : write_docx o tr langs lg = .error e) : e = .indexError := by
  unfold write_docx at h
  cases hm : o.enum.mapM (fun p => buildRow tr langs p.1 p.2) with
  | error e' =>
    rw [hm] at h
    have h' : (Except.error e' :
      Except PyError (List (List String))) = .error e := h
    simp only [Except.error.injEq] at h'
    rw [← h']
    exact rows_err_val o.enum e' hm
  | ok rows =>
    rw [hm] at h
    have h' : (Except.ok (("Timestamp" :: langs ++ [pyUpper lg]) :: rows) :
      Except PyError (List (List String))) = .error e := h
    exact absurd h' (by simp)

lemma write_docx_err_of_short {o : List Cue} {tr : List (String × List Cue)}
    {langs : List String} {lg lang : String} {buf : List Cue}
    (hmem : lang ∈ langs) (hlk : tr.lookup lang = some buf)
    (hshort : buf.length < o.length) :
    write_docx o tr langs lg = .error .indexError := by
  have hget : o[buf.length]? = some (o.get ⟨buf.length, hshort⟩) :=
    List.getElem?_eq_getElem hshort
  have hq : ((buf.length, o.get ⟨buf.length, hshort⟩) : Nat × Cue) ∈ o.enum :=
    List.mk_mem_enum_iff_getElem?.mpr hget
  have hrow : buildRow tr langs buf.length (o.get ⟨buf.length, hshort⟩) =
      .error .indexError :=
    buildRow_err_exists hmem hlk (Nat.le_refl _) _
  obtain ⟨e, he⟩ := rows_err_exists o.enum hq hrow
  have hv := rows_err_val o.enum e he
  subst hv
  unfold write_docx
  rw [he]
  rfl

lemma write_docx_ok_imp_aligned {o : List Cue} {tr : List (String × List Cue)}
    {langs : List String} {lg : String} {table : List (List String)}
    (h : write_docx o tr langs lg = .ok table) :
    ∀ lang ∈ langs, ∀ buf, tr.lookup lang = some buf →
      o.length ≤ buf.length := by
  intro lang hmem buf hlk
  by_contra hlt
  have hshort : buf.length < o.length := Nat.not_le.mp hlt
  have herr := @write_docx_err_of_short o tr langs lg lang buf hmem hlk hshort
  rw [herr] at h
  exact absurd h (by simp)

/-! ## Lemmas: parse on digit-free sources -/

lemma scanAux_nodigit :
    ∀ (f : Nat) (l : List Char), (∀ ch ∈ l, isDig ch = false) →
      scanAux f l = [] := by
  intro f
  induction f with
  | zero => intro l _; rfl
  | succ f ih =>
    intro l h
    cases l with
    | nil => rfl
    | cons c r =>
      rw [scanAux_cons_none (matchAt_nondigit (h c (List.mem_cons_self c r)))]
      exact ih r (fun ch hch => h ch (List.mem_cons_of_mem c hch))

/-! ## The claims -/

/-- Claim C1: for every source cue sequence, the translation stage
(`translate_lines`) and the polishing stage (`polish_texts`) each return
a buffer whose length equals the input sequence's length and whose entry
at every index carries the same start and end timestamps as the input
entry at that index. -/
theorem buffers_preserve_length_and_timestamps
    (translator : String → String) (complete : String → Except String String)
    (subtitles : List Cue) (language : String) :
    (translate_lines translator subtitles).length = subtitles.length ∧
    (translate_lines translator subtitles).map (·.start) =
      subtitles.map (·.start) ∧
    (translate_lines translator subtitles).map (·.«end») =
      subtitles.map (·.«end») ∧
    (polish_texts complete subtitles language).length = subtitles.length ∧
    (polish_texts complete subtitles language).map (·.start) =
      subtitles.map (·.start) ∧
    (polish_texts complete subtitles language).map (·.«end») =
      subtitles.map (·.«end») := by
  have ht : translate_lines translator subtitles = subtitles.map (fun s =>
      { num := "", start := s.start, «end» := s.«end»,
        text := if (stripBoth s.text.data).isEmpty then ""
          else translator s.text }) := translate_go_fst translator subtitles
  have hp := polish_texts_as_map complete subtitles language
  rw [ht, hp]
  refine ⟨by simp, ?_, ?_, by simp, ?_, ?_⟩ <;>
    (rw [List.map_map]; rfl)

/-- Claim C2 (counterexample): the round trip
`parse(write(parse(source)))` does not always reproduce the per-cue
text.  On a source whose cue body is the line `a` followed by a line
holding a single space, the first parse yields the text `"a "` (the
whitespace-only second line turns into a trailing space when the
stripped lines are joined), while re-parsing the written file yields
`"a"`. -/
theorem roundtrip_text_counterexample :
    (parse_srt "1\n00:00:01,000 --> 00:00:02,000\na\n ").map (·.text) =
      ["a "] ∧
    (parse_srt (write_srt
        (parse_srt "1\n00:00:01,000 --> 00:00:02,000\na\n "))).map (·.text) =
      ["a"] ∧
    (parse_srt (write_srt
        (parse_srt "1\n00:00:01,000 --> 00:00:02,000\na\n "))).map (·.text) ≠
      (parse_srt "1\n00:00:01,000 --> 00:00:02,000\na\n ").map (·.text) := by
  refine ⟨by decide, by decide, by decide⟩

/-- Claim C2 (amended): for every source, `parse(write(parse(source)))`
yields a cue sequence with the same cue count and the same start and end
timestamp at every index as `parse(source)`; the text at every index is
reproduced up to removal of trailing whitespace (so it is reproduced
exactly whenever no parsed cue text ends in whitespace; ordinal numbers
may differ). -/
theorem roundtrip_content_amended (src : String) :
    (parse_srt (write_srt (parse_srt src))).length = (parse_srt src).length ∧
    (parse_srt (write_srt (parse_srt src))).map (·.start) =
      (parse_srt src).map (·.start) ∧
    (parse_srt (write_srt (parse_srt src))).map (·.«end») =
      (parse_srt src).map (·.«end») ∧
    (parse_srt (write_srt (parse_srt src))).map (·.text) =
      (parse_srt src).map (fun c => stripTrailingStr c.text) := by
  have hclean := parse_clean src
  have hinit := parse_init src
  have hw := parse_write_parse (parse_srt src) hclean hinit
  obtain ⟨h1, h2, h3, h4⟩ := rawsOf_proj (parse_srt src) hclean 1
  rw [hw]
  exact ⟨h4, h1, h2, h3⟩

/-- Claim C3 (counterexample): on an input with no well-formed cue block
the parse operation does not fail — there is no `FormatError` anywhere
in the code — it returns the empty cue sequence. -/
theorem parse_garbage_returns_empty :
    parse_srt "this source has no subtitle cues at all" = [] := by decide

/-- Claim C3 (amended): `parse_srt` never raises: it is a total function
into cue sequences, and an input with no well-formed cue block yields
the empty sequence rather than a `FormatError`; in particular every
source without a decimal digit (hence without an index line or a
timestamp line) parses to `[]`. -/
theorem parse_no_digit_empty (src : String)
    (h : ∀ ch ∈ src.data, ch.isDigit = false) : parse_srt src = [] := by
  show (scanAux src.data.length src.data).map rawToCue = []
  rw [scanAux_nodigit src.data.length src.data h]
  rfl

/-- Witness for the amended C3 theorem at a concrete digit-free source. -/
theorem parse_no_digit_empty_witness :
    parse_srt "no timestamps here" = [] :=
  parse_no_digit_empty "no timestamps here" (by decide)

/-- Claim C4 (code bug): when the caller requests polishing, `main`
evaluates `args.ai_polish and OpenAI is not None`, but the generator
module never binds the name OpenAI (it imports only `polish_texts` from
the polisher module), so the run raises `NameError` instead of either
polishing or skipping with a log note — regardless of whether the
optional backend is available.  With the flag off the gate short-circuits
and the polish pass is skipped as documented. -/
theorem polish_gate_name_error (openaiAvailable : Bool) :
    polishGate true openaiAvailable = .error (.nameError "OpenAI") ∧
    polishGate false openaiAvailable = .ok false := by
  cases openaiAvailable <;> exact ⟨by decide, by decide⟩

/-- Claim C5: the translation adapter maps every cue whose text is empty
or whitespace-only to the empty string without invoking the remote
backend, and invokes the backend exactly once, in order, for each cue
with non-whitespace text (the call log equals the texts of exactly those
cues). -/
theorem translate_skips_blank_and_calls_once (translator : String → String)
    (subtitles : List Cue) :
    translateCalls translator subtitles =
      (subtitles.filter (fun s => !(stripBoth s.text.data).isEmpty)).map
        (·.text) ∧
    translate_lines translator subtitles = subtitles.map (fun s =>
      { num := "", start := s.start, «end» := s.«end»,
        text := if (stripBoth s.text.data).isEmpty then ""
          else translator s.text }) :=
  ⟨translate_go_snd translator subtitles, translate_go_fst translator subtitles⟩

/-- Claim C6: when the polishing backend call raises on a cue, the
polishing adapter does not propagate the error: the resulting entry
keeps that cue's original pre-polish text, a warning line is logged
rather than raised, and the pass still returns a full-length buffer. -/
theorem polish_failure_falls_back (complete : String → Except String String)
    (ts : List Cue) (lang e : String) (i : Nat) (t : Cue)
    (hget : ts.get? i = some t)
    (hne : (stripBoth t.text.data).isEmpty = false)
    (herr : complete (buildPrompt lang t.text) = .error e) :
    (polish_texts complete ts lang).get? i =
      some { num := "", start := t.start, «end» := t.«end», text := t.text } ∧
    polishFailMessage t.text e ∈ polishWarnings complete ts lang ∧
    (polish_texts complete ts lang).length = ts.length := by
  have hone : polishOne complete lang t.text =
      (t.text, [polishFailMessage t.text e]) := by
    simp [polishOne, hne, herr]
  refine ⟨?_, ?_, ?_⟩
  · rw [polish_texts_as_map, List.get?_map, hget]
    simp [hone]
  · rw [polishWarnings_eq]
    refine List.mem_flatten.mpr
      ⟨[polishFailMessage t.text e], ?_, List.mem_singleton_self _⟩
    refine List.mem_map.mpr ⟨t.text, ?_, by rw [hone]⟩
    exact List.mem_map.mpr ⟨t, List.get?_mem hget, rfl⟩
  · rw [polish_texts_as_map]
    simp

/-- Witness for C6: a backend that always fails leaves the single cue's
text unchanged, logs the warning and keeps the buffer length. -/
theorem polish_failure_falls_back_witness :
    (polish_texts (fun _ => .error "boom")
        [⟨"", "00:00:01,000", "00:00:02,000", "Hola"⟩] "fr").get? 0 =
      some ⟨"", "00:00:01,000", "00:00:02,000", "Hola"⟩ ∧
    polishFailMessage "Hola" "boom" ∈
      polishWarnings (fun _ => .error "boom")
        [⟨"", "00:00:01,000", "00:00:02,000", "Hola"⟩] "fr" ∧
    (polish_texts (fun _ => .error "boom")
        [⟨"", "00:00:01,000", "00:00:02,000", "Hola"⟩] "fr").length = 1 :=
  polish_failure_falls_back (fun _ => .error "boom")
    [⟨"", "00:00:01,000", "00:00:02,000", "Hola"⟩] "fr" "boom" 0
    ⟨"", "00:00:01,000", "00:00:02,000", "Hola"⟩ rfl (by decide) rfl

/-- Claim C7: whenever every requested language's collected buffer is at
least as long as the original cue sequence (the pipeline invariant of
C1), the combined document's table is exactly the one the spec
describes: one header row plus one data row per original cue, `2 +
count(languageOrder)` columns in every row, and columns ordered
timestamp, then each destination language in request order, then the
original-language column last. -/
theorem docx_table_shape (o : List Cue) (tr : List (String × List Cue))
    (langs : List String) (lg : String)
    (H : ∀ lang ∈ langs, ∀ buf, tr.lookup lang = some buf →
      o.length ≤ buf.length) :
    write_docx o tr langs lg = .ok (docxTableSpec o tr langs lg) ∧
    (docxTableSpec o tr langs lg).length = o.length + 1 ∧
    (docxTableSpec o tr langs lg).head? =
      some ("Timestamp" :: langs ++ [pyUpper lg]) ∧
    ∀ row ∈ docxTableSpec o tr langs lg, row.length = 2 + langs.length := by
  refine ⟨write_docx_ok H, ?_, rfl, ?_⟩
  · unfold docxTableSpec
    simp
  · intro row hrow
    unfold docxTableSpec at hrow
    rcases List.mem_cons.mp hrow with h1 | h1
    · subst h1
      simp
      omega
    · rcases List.mem_map.mp h1 with ⟨p, hp, rfl⟩
      simp
      omega

/-- Witness for C7 at the spec's own example: two cues, languages
`["fr", "de"]` with full buffers, original language `en`. -/
theorem docx_table_shape_witness :
    write_docx
        [⟨"1", "00:00:01,000", "00:00:02,000", "Hello"⟩,
         ⟨"2", "00:00:03,000", "00:00:04,000", "Goodbye"⟩]
        [("fr", [⟨"", "00:00:01,000", "00:00:02,000", "Bonjour"⟩,
                 ⟨"", "00:00:03,000", "00:00:04,000", "Au revoir"⟩]),
         ("de", [⟨"", "00:00:01,000", "00:00:02,000", "Hallo"⟩,
                 ⟨"", "00:00:03,000", "00:00:04,000", "Tschuss"⟩])]
        ["fr", "de"] "en" =
      .ok (docxTableSpec
        [⟨"1", "00:00:01,000", "00:00:02,000", "Hello"⟩,
         ⟨"2", "00:00:03,000", "00:00:04,000", "Goodbye"⟩]
        [("fr", [⟨"", "00:00:01,000", "00:00:02,000", "Bonjour"⟩,
                 ⟨"", "00:00:03,000", "00:00:04,000", "Au revoir"⟩]),
         ("de", [⟨"", "00:00:01,000", "00:00:02,000", "Hallo"⟩,
                 ⟨"", "00:00:03,000", "00:00:04,000", "Tschuss"⟩])]
        ["fr", "de"] "en") ∧
    (docxTableSpec
        [⟨"1", "00:00:01,000", "00:00:02,000", "Hello"⟩,
         ⟨"2", "00:00:03,000", "00:00:04,000", "Goodbye"⟩]
        [("fr", [⟨"", "00:00:01,000", "00:00:02,000", "Bonjour"⟩,
                 ⟨"", "00:00:03,000", "00:00:04,000", "Au revoir"⟩]),
         ("de", [⟨"", "00:00:01,000", "00:00:02,000", "Hallo"⟩,
                 ⟨"", "00:00:03,000", "00:00:04,000", "Tschuss"⟩])]
        ["fr", "de"] "en").length = 2 + 1 ∧
    (docxTableSpec
        [⟨"1", "00:00:01,000", "00:00:02,000", "Hello"⟩,
         ⟨"2", "00:00:03,000", "00:00:04,000", "Goodbye"⟩]
        [("fr", [⟨"", "00:00:01,000", "00:00:02,000", "Bonjour"⟩,
                 ⟨"", "00:00:03,000", "00:00:04,000", "Au revoir"⟩]),
         ("de", [⟨"", "00:00:01,000", "00:00:02,000", "Hallo"⟩,
                 ⟨"", "00:00:03,000", "00:00:04,000", "Tschuss"⟩])]
        ["fr", "de"] "en").head? =
      some ("Timestamp" :: ["fr", "de"] ++ [pyUpper "en"]) ∧
    ∀ row ∈ docxTableSpec
        [⟨"1", "00:00:01,000", "00:00:02,000", "Hello"⟩,
         ⟨"2", "00:00:03,000", "00:00:04,000", "Goodbye"⟩]
        [("fr", [⟨"", "00:00:01,000", "00:00:02,000", "Bonjour"⟩,
                 ⟨"", "00:00:03,000", "00:00:04,000", "Au revoir"⟩]),
         ("de", [⟨"", "00:00:01,000", "00:00:02,000", "Hallo"⟩,
                 ⟨"", "00:00:03,000", "00:00:04,000", "Tschuss"⟩])]
        ["fr", "de"] "en", row.length = 2 + (["fr", "de"] : List String).length :=
  docx_table_shape _ _ _ _ (by
    intro lang hmem buf hlk
    fin_cases hmem
    · have heval :
          ([("fr", [⟨"", "00:00:01,000", "00:00:02,000", "Bonjour"⟩,
                    ⟨"", "00:00:03,000", "00:00:04,000", "Au revoir"⟩]),
            ("de", [⟨"", "00:00:01,000", "00:00:02,000", "Hallo"⟩,
                    ⟨"", "00:00:03,000", "00:00:04,000", "Tschuss"⟩])] :
            List (String × List Cue)).lookup "fr" =
          some [⟨"", "00:00:01,000", "00:00:02,000", "Bonjour"⟩,
                ⟨"", "00:00:03,000", "00:00:04,000", "Au revoir"⟩] := by decide
      rw [heval] at hlk
      cases hlk
      decide
    · have heval :
          ([("fr", [⟨"", "00:00:01,000", "00:00:02,000", "Bonjour"⟩,
                    ⟨"", "00:00:03,000", "00:00:04,000", "Au revoir"⟩]),
            ("de", [⟨"", "00:00:01,000", "00:00:02,000", "Hallo"⟩,
                    ⟨"", "00:00:03,000", "00:00:04,000", "Tschuss"⟩])] :
            List (String × List Cue)).lookup "de" =
          some [⟨"", "00:00:01,000", "00:00:02,000", "Hallo"⟩,
                ⟨"", "00:00:03,000", "00:00:04,000", "Tschuss"⟩] := by decide
      rw [heval] at hlk
      cases hlk
      decide)

/-- Claim C8: a requested language whose buffer is absent from the
collected translations mapping yields an empty cell in every data row
(at that language's column position) rather than an error, and the
document is still emitted. -/
theorem docx_missing_language_blank_column (o : List Cue)
    (tr : List (String × List Cue)) (langs : List String) (lg lang : String)
    (j : Nat)
    (H : ∀ l ∈ langs, ∀ buf, tr.lookup l = some buf → o.length ≤ buf.length)
    (hmiss : tr.lookup lang = none) (hj : langs.get? j = some lang) :
    ∃ rows, write_docx o tr langs lg =
        .ok (("Timestamp" :: langs ++ [pyUpper lg]) :: rows) ∧
      rows.length = o.length ∧
      ∀ row ∈ rows, row.get? (j + 1) = some "" := by
  refine ⟨o.enum.map (fun p => (p.2.start ++ " --> " ++ p.2.«end») ::
    langs.map (fun l => specCell tr l p.1) ++ [p.2.text]), ?_, ?_, ?_⟩
  · exact write_docx_ok H
  · simp
  · intro row hrow
    rcases List.mem_map.mp hrow with ⟨p, hp, rfl⟩
    obtain ⟨hjlt, -⟩ := List.get?_eq_some.mp hj
    rw [List.get?_append (by simp; omega), List.get?_cons_succ,
      List.get?_map, hj]
    show some (specCell tr lang p.1) = some ""
    unfold specCell
    rw [hmiss]

/-- Witness for C8: language `fr` is requested but absent from the
mapping while `de` is present with an aligned buffer; the table is
emitted with an empty `fr` cell in the data row. -/
theorem docx_missing_language_blank_column_witness :
    ∃ rows, write_docx [⟨"1", "00:00:01,000", "00:00:02,000", "Hello"⟩]
        [("de", [⟨"", "00:00:01,000", "00:00:02,000", "Hallo"⟩])]
        ["fr", "de"] "en" =
        .ok (("Timestamp" :: ["fr", "de"] ++ [pyUpper "en"]) :: rows) ∧
      rows.length = 1 ∧
      ∀ row ∈ rows, row.get? (0 + 1) = some "" :=
  docx_missing_language_blank_column
    [⟨"1", "00:00:01,000", "00:00:02,000", "Hello"⟩]
    [("de", [⟨"", "00:00:01,000", "00:00:02,000", "Hallo"⟩])]
    ["fr", "de"] "en" "fr" 0
    (by
      intro lang hmem buf hlk
      fin_cases hmem
      · have heval :
            ([("de", [⟨"", "00:00:01,000", "00:00:02,000", "Hallo"⟩])] :
              List (String × List Cue)).lookup "fr" = none := by decide
        rw [heval] at hlk
        exact absurd hlk (by simp)
      · have heval :
            ([("de", [⟨"", "00:00:01,000", "00:00:02,000", "Hallo"⟩])] :
              List (String × List Cue)).lookup "de" =
            some [⟨"", "00:00:01,000", "00:00:02,000", "Hallo"⟩] := by decide
        rw [heval] at hlk
        cases hlk
        decide)
    (by decide) rfl

/-- Claim C9 (counterexample): duplicate destination language codes are
neither rejected nor deduplicated before dispatch: requesting
`["fr", "fr"]` submits two translation jobs for `fr` and renders two
`fr` columns in the combined document's header. -/
theorem dispatch_duplicates_counterexample :
    (translationJobs "en" ["fr", "fr"]).map (·.dest_lang) = ["fr", "fr"] ∧
    ((translationJobs "en" ["fr", "fr"]).map (·.dest_lang)).count "fr" = 2 ∧
    write_docx [] [] ["fr", "fr"] "en" =
      .ok [["Timestamp", "fr", "fr", "EN"]] ∧
    (["Timestamp", "fr", "fr", "EN"] : List String).count "fr" = 2 := by
  refine ⟨by decide, by decide, by decide, by decide⟩

/-- Claim C9 (amended): the orchestrator performs no rejection or
deduplication of duplicate destination codes: one translation job is
dispatched per occurrence of a language in the requested list (in
request order), and the combined document renders one column per
occurrence.  (The collected results dictionary is keyed by language
code, so duplicate occurrences do collapse to a single buffer and a
single per-language SRT file.) -/
theorem dispatch_no_dedup_amended (input_language : String)
    (output_languages : List String)
    (translations : List (String × List Cue)) :
    (translationJobs input_language output_languages).map (·.dest_lang) =
      output_languages ∧
    (translationJobs input_language output_languages).length =
      output_languages.length ∧
    write_docx [] translations output_languages input_language =
      .ok [("Timestamp" :: output_languages ++ [pyUpper input_language])] := by
  refine ⟨?_, ?_, rfl⟩
  · unfold translationJobs
    rw [List.map_map]
    exact List.map_id _
  · simp [translationJobs]

/-- Claim C10 (counterexample): as stated, the claim quantifies over
every key present in the translations mapping; but a present key that is
not among the requested output languages is never indexed, so a
present-but-shorter buffer for a non-requested key does not make
composition fail. -/
theorem docx_nonrequested_short_buffer_counterexample :
    ([("zz", ([] : List Cue))] : List (String × List Cue)).lookup "zz" =
      some [] ∧
    ([] : List Cue).length <
      ([⟨"1", "00:00:01,000", "00:00:02,000", "Hi"⟩] : List Cue).length ∧
    write_docx [⟨"1", "00:00:01,000", "00:00:02,000", "Hi"⟩] [("zz", [])]
        [] "en" =
      .ok [["Timestamp", "EN"], ["00:00:01,000 --> 00:00:02,000", "Hi"]] := by
  refine ⟨by decide, by decide, by decide⟩

/-- Claim C10 (amended): restricted to languages that are both requested
and present as keys, the implicit precondition holds: composition
completes without error exactly when every such buffer has length at
least the original cue count, and a requested, present-but-shorter
buffer makes composition fail with an unguarded IndexError (while a
fully absent key degrades to an empty cell, see C8). -/
theorem docx_requested_buffer_length_precondition (o : List Cue)
    (tr : List (String × List Cue)) (langs : List String) (lg : String) :
    ((∃ table, write_docx o tr langs lg = .ok table) ↔
      (∀ lang ∈ langs, ∀ buf, tr.lookup lang = some buf →
        o.length ≤ buf.length)) ∧
    (∀ lang ∈ langs, ∀ buf, tr.lookup lang = some buf →
      buf.length < o.length →
      write_docx o tr langs lg = .error .indexError) := by
  refine ⟨⟨?_, ?_⟩, ?_⟩
  · rintro ⟨table, htable⟩
    exact write_docx_ok_imp_aligned htable
  · intro H
    exact ⟨_, write_docx_ok H⟩
  · intro lang hmem buf hlk hshort
    exact write_docx_err_of_short hmem hlk hshort

/-- Witness for the amended C10 theorem: a requested language `fr` with
a present empty buffer against a one-cue original makes composition fail
with IndexError. -/
theorem docx_requested_buffer_length_precondition_witness :
    write_docx [⟨"1", "00:00:01,000", "00:00:02,000", "Hi"⟩] [("fr", [])]
      ["fr"] "en" = .error .indexError :=
  (docx_requested_buffer_length_precondition
      [⟨"1", "00:00:01,000", "00:00:02,000", "Hi"⟩] [("fr", [])]
      ["fr"] "en").2
    "fr" (by decide) [] (by decide) (by decide)

end LPG
